import Mathlib

/-! Verification of the IPN documentation chatbot repository.

The frontend (React/TypeScript) is embedded from the source files
(`Chatbot.tsx`, `Documentation.tsx`).  The Python RAG backend
(`RAG/src/rag_engine.py`, `RAG/src/vectorstore.py`) is not part of the
checked-in sources, so its operations (query retrieval, vector search,
re-ranking) are modelled from the specification, as indicated on each
such definition.

Machine reals (relevance scores) are modelled as rationals; JavaScript
strings as Lean `String` (ASCII-faithful for the data involved).
-/

namespace IPN

/-! Executable embeddings of the JavaScript string methods

Lean's built-in `String.trim`, `String.toLower`, … are compiled
wrappers whose auxiliary loops do not reduce in the kernel, so the
JavaScript string methods used by the sources are embedded here as
structurally recursive functions on the character list of a `String`.
The character data involved is ASCII, where these coincide with the
JavaScript semantics. -/

/-- Embeds `String.prototype.trim`: removes whitespace from both ends. -/
def jsTrim (s : String) : String :=
  ⟨((s.data.dropWhile Char.isWhitespace).reverse.dropWhile
      Char.isWhitespace).reverse⟩

/-- Embeds `String.prototype.toLowerCase` (ASCII). -/
def jsToLower (s : String) : String := ⟨s.data.map Char.toLower⟩

/-- Embeds `String.prototype.startsWith`. -/
def jsStartsWith (s pre : String) : Bool := pre.data.isPrefixOf s.data

/-- Embeds `String.prototype.substring(n)` / dropping the first `n`
characters (used for stripping a heading marker). -/
def jsDrop (s : String) (n : Nat) : String := ⟨s.data.drop n⟩

/-- Auxiliary scanner for `splitLines`. -/
def splitLinesAux : List Char → List Char → List String
  | [], acc => [⟨acc.reverse⟩]
  | c :: cs, acc =>
    if c = '\n' then ⟨acc.reverse⟩ :: splitLinesAux cs []
    else splitLinesAux cs (c :: acc)

/-- Embeds `String.prototype.split('\n')`. -/
def splitLines (s : String) : List String := splitLinesAux s.data []

/-- Substring occurrence test at any position (auxiliary for
`jsIncludes`). -/
def containsAt : List Char → List Char → Bool
  | pat, [] => pat.isEmpty
  | pat, c :: rest => pat.isPrefixOf (c :: rest) || containsAt pat rest

/-- Embeds `String.prototype.includes`: substring containment. -/
def jsIncludes (s pat : String) : Bool := containsAt pat.data s.data

/-- Document category, as in the `Source` interface of `Chatbot.tsx`
(`category: 'backend' | 'frontend' | 'other'`) and the spec's data model. -/
inductive Category where
  | backend
  | frontend
  | other
deriving DecidableEq

/-- Source record attached to a bot message (`Source` in `Chatbot.tsx`):
exactly the fields `file`, `path`, `category`, `relevance_score`. -/
structure Source where
  file : String
  path : String
  category : Category
  relevance_score : ℚ
deriving DecidableEq

/-! Chatbot frontend (`Chatbot.tsx`) -/

namespace Chatbot

/-- Message sender (`sender: 'user' | 'bot'` in the `Message` interface). -/
inductive Sender where
  | user
  | bot
deriving DecidableEq

/-- A chat message, restricted to the `Message` fields the send path reads
(`id`, `sender`, `text`, `time`). -/
structure Message where
  id : String
  sender : Sender
  text : String
  time : String
deriving DecidableEq

/-- One entry of the `chat_history` request field: an object with a
`role` string and a `content` string, as produced by `getChatHistory`. -/
structure ChatTurn where
  role : String
  content : String
deriving DecidableEq

/-- Body of the POST to `/api/chat` built in `handleSend`: exactly the
fields `message` and `chat_history`. -/
structure RequestBody where
  message : String
  chat_history : List ChatTurn
deriving DecidableEq

/-- The component state touched by `handleSend`: the message list and the
`userInput`, `isTyping`, `isLoading` hooks. -/
structure ChatState where
  messages : List Message
  userInput : String
  isTyping : Bool
  isLoading : Bool
deriving DecidableEq

/-- Embeds `getChatHistory` of `Chatbot.tsx`: filters out the message with
id `"welcome"` and maps each remaining message to a role/content pair,
the role being `"user"` for user messages and `"assistant"` otherwise. -/
def getChatHistory (messages : List Message) : List ChatTurn :=
  (messages.filter (fun m => m.id != "welcome")).map
    (fun m => { role := if m.sender = Sender.user then "user" else "assistant",
                content := m.text })

/-- Embeds `handleSend` of `Chatbot.tsx` up to the construction of the
`/api/chat` request body.  If the trimmed input is empty or a request is
in flight it returns unchanged state and no request.  Otherwise it
appends the new user message, clears the input, sets the typing/loading
flags, and builds the body `{ message, chat_history }` where
`chat_history` is `getChatHistory().slice(0, -1)`.  `getChatHistory` is a
`useCallback` over the `messages` state of the current render, which does
not yet contain the message appended by the `setMessages` updater, so it
is applied to the pre-send message list. -/
def handleSend (s : ChatState) (newId newTime : String) :
    ChatState × Option RequestBody :=
  if jsTrim s.userInput == "" || s.isLoading then (s, none)
  else
    let userMessage : Message :=
      { id := newId, sender := Sender.user, text := s.userInput, time := newTime }
    ({ s with
        messages := s.messages ++ [userMessage],
        userInput := "",
        isTyping := true,
        isLoading := true },
     some { message := userMessage.text,
            chat_history := (getChatHistory s.messages).dropLast })

/-- Embeds `getCategoryIcon` of `Chatbot.tsx`: a switch on the category
string with a default arm. -/
def getCategoryIcon (category : String) : String :=
  if category == "backend" then "⚙️"
  else if category == "frontend" then "💻"
  else "📄"

/-- Embeds `getCategoryLabel` of `Chatbot.tsx`: a switch on the category
string with a default arm. -/
def getCategoryLabel (category : String) : String :=
  if category == "backend" then "Backend"
  else if category == "frontend" then "Frontend"
  else "Documentation"

end Chatbot

/-! Documentation viewer (`src/pages/Documentation.tsx`) -/

namespace Docs

/-- A documentation file record (`DocFile`), restricted to the fields the
filtering and parsing code reads. -/
structure DocFile where
  id : String
  displayName : String
  fileName : String
  «section» : String
  path : String
  category : String
deriving DecidableEq

/-- The loaded documentation data (`DocumentationData`), restricted to the
`files` field, the only one `filteredFiles` reads. -/
structure DocumentationData where
  files : List DocFile
deriving DecidableEq

/-- The search predicate of `filteredFiles`: the lowercased (untrimmed)
query occurs in the lowercased `displayName`, `fileName`, `section` or
`path` of the file. -/
def matchesQuery (f : DocFile) (searchQuery : String) : Bool :=
  let query := jsToLower searchQuery
  jsIncludes (jsToLower f.displayName) query ||
  jsIncludes (jsToLower f.fileName) query ||
  jsIncludes (jsToLower f.«section») query ||
  jsIncludes (jsToLower f.path) query

/-- Embeds the `filteredFiles` memo of `Documentation.tsx`: `[]` when no
data is loaded; otherwise the files, filtered by category when the filter
is not `'all'`, then by the search predicate when the trimmed query is
non-empty. -/
def filteredFiles (docsData : Option DocumentationData)
    (searchQuery : String) (categoryFilter : String) : List DocFile :=
  match docsData with
  | none => []
  | some d =>
    let files := d.files
    let files :=
      if categoryFilter != "all" then
        files.filter (fun f => f.category == categoryFilter)
      else files
    if jsTrim searchQuery != "" then
      files.filter (fun f => matchesQuery f searchQuery)
    else files

/-- A parsed markdown section as produced by `parseMarkdownContent`:
title, flattened content (with code block placeholders), and the code
blocks collected for the section. -/
structure MdSection where
  title : String
  content : String
  codeBlocks : List String
deriving DecidableEq

/-- Embeds `Array.prototype.join('\n')`. -/
def joinLines : List String → String
  | [] => ""
  | [s] => s
  | s :: rest => s ++ "\n" ++ joinLines rest

/-- The loop state of `parseMarkdownContent`: the emitted `sections`, the
open section (its `title` and `codeBlocks`; its `content` is only
assembled from `currentContent` when the section is pushed), the
`currentContent` lines, the `inCodeBlock` flag with the pending
`codeBlockContent`, and `mainTitle`. -/
structure ParseState where
  sections : List MdSection
  currentSection : Option (String × List String)
  currentContent : List String
  inCodeBlock : Bool
  codeBlockContent : List String
  mainTitle : String
deriving DecidableEq

/-- Embeds one iteration of the `parseMarkdownContent` loop body.  The
JavaScript `line.replace('## ', '')` replaces the first occurrence, which
for a line starting with `"## "` is its first three characters, hence
`jsDrop line 3` (and `jsDrop line 2` for `'# '`); the placeholder index
`currentSection?.codeBlocks?.length - 1` renders as `NaN` when no section
is open. -/
def step (st : ParseState) (line : String) : ParseState :=
  if jsStartsWith (jsTrim line) "```" then
    if st.inCodeBlock = false then
      { st with inCodeBlock := true, codeBlockContent := [] }
    else
      match st.currentSection with
      | some (t, cbs) =>
        let cbs' := cbs ++ [joinLines st.codeBlockContent]
        { st with inCodeBlock := false,
                  currentSection := some (t, cbs'),
                  currentContent := st.currentContent ++
                    ["___CODE_BLOCK_" ++ Nat.repr (cbs'.length - 1)
                      ++ "___"] }
      | none =>
        { st with inCodeBlock := false,
                  currentContent := st.currentContent ++
                    ["___CODE_BLOCK_NaN___"] }
  else if st.inCodeBlock then
    { st with codeBlockContent := st.codeBlockContent ++ [line] }
  else if jsStartsWith line "# " && !(jsStartsWith line "## ") then
    { st with mainTitle := jsTrim (jsDrop line 2) }
  else if jsStartsWith line "## " then
    let sectionTitle := jsTrim (jsDrop line 3)
    if sectionTitle == "Overview" then
      { st with currentSection := none, currentContent := [] }
    else
      match st.currentSection with
      | some (t, cbs) =>
        { st with
            sections := st.sections ++
              [⟨t, jsTrim (joinLines st.currentContent), cbs⟩],
            currentSection := some (sectionTitle, []),
            currentContent := [] }
      | none =>
        { st with currentSection := some (sectionTitle, []),
                  currentContent := [] }
  else
    match st.currentSection with
    | some _ => { st with currentContent := st.currentContent ++ [line] }
    | none => st

/-- Embeds `parseMarkdownContent` of `Documentation.tsx`: folds the loop
body over the lines of the content and flushes the still-open section at
the end (unless it is titled `Overview`). -/
def parseMarkdownContent (content : String) : List MdSection :=
  let final := (splitLines content).foldl step ⟨[], none, [], false, [], ""⟩
  match final.currentSection with
  | some (t, cbs) =>
    if t != "Overview" then
      final.sections ++ [⟨t, jsTrim (joinLines final.currentContent), cbs⟩]
    else final.sections
  | none => final.sections

/-! Reference rendering of the parser, for the code-block claim

`fenceItemsAux` resolves the code fences of the line list into a sequence
of plain text lines and completed fenced code blocks (an unterminated
fence contributes nothing, as in the source, whose pending
`codeBlockContent` is dropped at the end of the loop).
`refSectionsAux` then assigns every code block to the section heading
most recently opened before it: a section's blocks are exactly the
fenced blocks appearing between its `'## '` heading and the next
`'## '` heading (headings inside code fences do not count, and an
`Overview` heading closes the previous section while opening none). -/

/-- An intermediate item: a text line outside fences, or a completed
fenced code block. -/
inductive MdItem where
  | text (line : String)
  | code (block : String)
deriving DecidableEq

/-- Resolves code fences over the lines; the Bool is the in-fence state
and the list the pending fence content. -/
def fenceItemsAux : List String → Bool → List String → List MdItem
  | [], _, _ => []
  | l :: ls, false, _ =>
    if jsStartsWith (jsTrim l) "```" then fenceItemsAux ls true []
    else .text l :: fenceItemsAux ls false []
  | l :: ls, true, acc =>
    if jsStartsWith (jsTrim l) "```" then
      .code (joinLines acc) :: fenceItemsAux ls false []
    else fenceItemsAux ls true (acc ++ [l])

/-- The fence-resolved item sequence of a line list. -/
def fenceItems (lines : List String) : List MdItem :=
  fenceItemsAux lines false []

/-- Groups the code blocks under the section headings: each heading
collects exactly the code items up to the next heading. -/
def refSectionsAux : List MdItem → Option (String × List String) →
    List (String × List String)
  | [], cur =>
    match cur with
    | some sc => [sc]
    | none => []
  | .text l :: items, cur =>
    if jsStartsWith l "## " then
      let t := jsTrim (jsDrop l 3)
      if t == "Overview" then refSectionsAux items none
      else
        match cur with
        | some sc => sc :: refSectionsAux items (some (t, []))
        | none => refSectionsAux items (some (t, []))
    else refSectionsAux items cur
  | .code b :: items, cur =>
    match cur with
    | some (t, cbs) => refSectionsAux items (some (t, cbs ++ [b]))
    | none => refSectionsAux items cur

/-- The reference section rendering (title and code blocks) of a line
list. -/
def refSections (lines : List String) : List (String × List String) :=
  refSectionsAux (fenceItems lines) none

/-- The title/code-blocks view of a parsed section. -/
def sectionTitleBlocks (s : MdSection) : String × List String :=
  (s.title, s.codeBlocks)

/-- The title/code-blocks view of an optional open section. -/
def viewCur : Option (String × List String) → List (String × List String)
  | some sc => [sc]
  | none => []

/-- The title/code-blocks view of the whole loop state. -/
def viewFold (st : ParseState) : List (String × List String) :=
  st.sections.map sectionTitleBlocks ++ viewCur st.currentSection

/-- A title is good for a line list when it is the trimmed text of some
non-`Overview` `'## '` heading line in it. -/
def goodTitle (ls : List String) (t : String) : Prop :=
  ∃ l ∈ ls, jsStartsWith l "## " = true ∧ t = jsTrim (jsDrop l 3)
    ∧ t ≠ "Overview"

end Docs

/-! RAG backend (modelled from the spec)

The Python retrieval pipeline (`RAG/src/rag_engine.py`,
`RAG/src/vectorstore.py`) is not among the checked-in sources — only its
callers and documentation are — so the definitions in this namespace are
modelled from the specification's component design (§4). -/

namespace RAG

/-- Modelled from the spec: the `Chunk` record of the data model (§3);
the chunk extraction code (`RAG/src/document_processor.py`) is missing
from the sources. -/
structure Chunk where
  id : Nat
  text : String
  source_path : String
  file_name : String
  category : Category
  chunk_index : Nat
deriving DecidableEq

/-- Modelled from the spec: a `RetrievalResult` is a `Chunk` plus a
`relevance_score` (§3). -/
structure RetrievalResult where
  chunk : Chunk
  relevance_score : ℚ
deriving DecidableEq

/-- Modelled from the spec: the Retriever's similarity-threshold step
(§4.3, `RAG/src/rag_engine.py` missing from the sources): it "filters out
any result with `score < similarity_threshold`, and returns what remains
(possibly empty)". -/
def thresholdFilter (results : List RetrievalResult)
    (similarity_threshold : ℚ) : List RetrievalResult :=
  results.filter (fun r => !decide (r.relevance_score < similarity_threshold))

/-- Modelled from the spec: one Vector Index entry — an embedding vector
parallel to the chunk store, carrying the chunk's category; the entry's
position is the chunk id (§3, `RAG/src/vectorstore.py` missing from the
sources). -/
structure IndexEntry where
  vec : List ℚ
  category : Category
deriving DecidableEq

/-- Modelled from the spec: the optional category restriction of `search`
(§4.2). -/
def categoryMatches (category_filter : Option Category)
    (e : IndexEntry) : Bool :=
  match category_filter with
  | none => true
  | some c => e.category == c

/-- Modelled from the spec: cosine similarity of unit-normalized vectors
is their inner product (§4.2, glossary). -/
def cosineSim (q v : List ℚ) : ℚ := (List.zipWith (· * ·) q v).sum

/-- Modelled from the spec: the ordering of `search` results — higher
score first, ties broken by lower chunk id (§4.2). -/
def searchLE (a b : Nat × ℚ) : Bool :=
  decide (b.2 < a.2 ∨ (a.2 = b.2 ∧ a.1 ≤ b.1))

/-- Modelled from the spec: Vector Index `search` (§4.2,
`RAG/src/vectorstore.py` missing from the sources): scores every indexed
vector against the query (restricted to the category filter when given)
and returns the `k` best `(chunk_id, score)` pairs in the deterministic
order `searchLE`. -/
def search (index : List IndexEntry) (query : List ℚ) (k : Nat)
    (category_filter : Option Category) : List (Nat × ℚ) :=
  let candidates :=
    index.enum.filter (fun p => categoryMatches category_filter p.2)
  let scored := candidates.map (fun p => (p.1, cosineSim query p.2.vec))
  (scored.mergeSort searchLE).take k

/-- Modelled from the spec: round-robin interleaving over the category
groups (§4.4) — in each round one item is taken from each non-exhausted
group, in group order, stopping as soon as the target count is reached or
all groups are exhausted.  The first argument is structural-recursion
fuel; every round with a pick left consumes at least one unit of the
remaining target, so with fuel ≥ target the fuel never runs out before
the spec's stopping condition. -/
def roundRobinFuel {α : Type} : Nat → List (List α) → Nat → List α
  | 0, _, _ => []
  | _ + 1, _, 0 => []
  | fuel + 1, groups, n + 1 =>
    let picks := groups.filterMap List.head?
    if picks.isEmpty then []
    else if n + 1 ≤ picks.length then picks.take (n + 1)
    else picks ++
      roundRobinFuel fuel (groups.map (fun g => g.drop 1))
        (n + 1 - picks.length)

/-- Modelled from the spec: `roundRobin groups target_count` runs the
rounds with sufficient fuel. -/
def roundRobin {α : Type} (groups : List (List α))
    (target_count : Nat) : List α :=
  roundRobinFuel target_count groups target_count

/-- Membership of a retrieval result in a category group. -/
def byCategory (c : Category) (r : RetrievalResult) : Bool :=
  r.chunk.category == c

/-- Modelled from the spec: the Re-ranker's `diversify` (§4.4,
`RAG/src/rag_engine.py` missing from the sources): groups the results by
category preserving their order, then round-robins over the groups in the
fixed priority order backend, frontend, other. -/
def diversify (results : List RetrievalResult)
    (target_count : Nat) : List RetrievalResult :=
  roundRobin
    [results.filter (byCategory Category.backend),
     results.filter (byCategory Category.frontend),
     results.filter (byCategory Category.other)] target_count

end RAG

end IPN

namespace IPN

/-! Theorems -/

open Chatbot

/-- Claim C1, counterexample: `getChatHistory` enforces no bound at all on
the chat history length — for every candidate bound `N` there is a message
list on which its output has more than `N` entries, so the chat history
accompanying a request is not bounded to any configurable number of most
recent turns by the frontend. -/
theorem c1_counterexample :
    ¬ ∃ N : Nat, ∀ messages : List Chatbot.Message,
      (getChatHistory messages).length ≤ N := by
  rintro ⟨N, h⟩
  have hb := h (List.replicate (N + 1)
    { id := "m", sender := Sender.user, text := "x", time := "t" })
  have hfilter : (List.replicate (N + 1)
      ({ id := "m", sender := Sender.user, text := "x", time := "t" } :
        Chatbot.Message)).filter (fun m => m.id != "welcome")
      = List.replicate (N + 1)
        ({ id := "m", sender := Sender.user, text := "x", time := "t" } :
          Chatbot.Message) := by
    apply List.filter_eq_self.mpr
    intro a ha
    rw [List.eq_of_mem_replicate ha]
    decide
  rw [getChatHistory, List.length_map, hfilter, List.length_replicate] at hb
  omega

/-- Claim C1, amended: the frontend applies no bound. `getChatHistory`
keeps one turn per non-welcome message (nothing is discarded), and the
`chat_history` field of the request built by `handleSend` is that full
list minus its final entry, so it grows without bound with the
conversation. -/
theorem c1_amended_no_bound :
    ∀ (msgs : List Chatbot.Message),
      (getChatHistory msgs).length
        = (msgs.filter (fun m => m.id != "welcome")).length
      ∧ ∀ (s : ChatState) (i t : String) (s' : ChatState) (body : RequestBody),
          handleSend s i t = (s', some body) →
          body.chat_history.length = (getChatHistory s.messages).length - 1 := by
  intro msgs
  constructor
  · rw [getChatHistory, List.length_map]
  · intro s i t s' body h
    rw [handleSend] at h
    by_cases hc : (jsTrim s.userInput == "" || s.isLoading) = true
    · rw [if_pos hc] at h
      simpa using congrArg Prod.snd h
    · rw [if_neg hc] at h
      simp only [Prod.mk.injEq, Option.some.injEq] at h
      obtain ⟨-, hbody⟩ := h
      rw [← hbody, List.length_dropLast]

/-- Claim C1, witness for the amended theorem at a concrete state: the
full-history length law, and the sent chat history shortened by exactly
one entry on a concrete send. -/
theorem c1_witness :
    ((getChatHistory [⟨"a", Sender.user, "q1", "t"⟩,
        ⟨"b", Sender.bot, "a1", "t"⟩]).length
      = ([⟨"a", Sender.user, "q1", "t"⟩,
          ⟨"b", Sender.bot, "a1", "t"⟩].filter
            (fun (m : Chatbot.Message) => m.id != "welcome")).length)
    ∧ ({ message := "how?", chat_history := [⟨"user", "q1"⟩] }
        : RequestBody).chat_history.length
      = (getChatHistory [⟨"welcome", Sender.bot, "w", "t"⟩,
          ⟨"a", Sender.user, "q1", "t"⟩,
          ⟨"b", Sender.bot, "a1", "t"⟩]).length - 1 := by
  refine ⟨(c1_amended_no_bound
    [⟨"a", Sender.user, "q1", "t"⟩, ⟨"b", Sender.bot, "a1", "t"⟩]).1, ?_⟩
  exact (c1_amended_no_bound []).2
    ⟨[⟨"welcome", Sender.bot, "w", "t"⟩, ⟨"a", Sender.user, "q1", "t"⟩,
      ⟨"b", Sender.bot, "a1", "t"⟩], "how?", false, false⟩ "n" "t2"
    ⟨[⟨"welcome", Sender.bot, "w", "t"⟩, ⟨"a", Sender.user, "q1", "t"⟩,
      ⟨"b", Sender.bot, "a1", "t"⟩, ⟨"n", Sender.user, "how?", "t2"⟩],
      "", true, true⟩
    { message := "how?", chat_history := [⟨"user", "q1"⟩] } (by decide)

/-- Claim C2: for every send that produces a request, the request body has
exactly the `message` field (the raw user text) and the `chat_history`
field; every history entry has a role equal to `"user"` or `"assistant"`
and a string content; and the just-entered message is excluded from
`chat_history` — every entry originates from a message already present
before the send. -/
theorem c2_request_shape :
    ∀ (s : ChatState) (i t : String) (s' : ChatState) (body : RequestBody),
      handleSend s i t = (s', some body) →
        body = { message := s.userInput,
                 chat_history := (getChatHistory s.messages).dropLast }
        ∧ (∀ turn ∈ body.chat_history,
            turn.role = "user" ∨ turn.role = "assistant")
        ∧ (∀ turn ∈ body.chat_history,
            ∃ m ∈ s.messages, m.id ≠ "welcome" ∧ turn.content = m.text) := by
  intro s i t s' body h
  rw [handleSend] at h
  by_cases hc : (jsTrim s.userInput == "" || s.isLoading) = true
  · rw [if_pos hc] at h
    simpa using congrArg Prod.snd h
  · rw [if_neg hc] at h
    simp only [Prod.mk.injEq, Option.some.injEq] at h
    obtain ⟨-, hbody⟩ := h
    refine ⟨hbody.symm, ?_, ?_⟩
    · intro turn hturn
      rw [← hbody] at hturn
      have hmem : turn ∈ getChatHistory s.messages :=
        (List.dropLast_sublist _).mem hturn
      rw [getChatHistory] at hmem
      obtain ⟨m, -, hm⟩ := List.mem_map.mp hmem
      rw [← hm]
      by_cases hu : m.sender = Sender.user
      · left; simp [hu]
      · right; simp [hu]
    · intro turn hturn
      rw [← hbody] at hturn
      have hmem : turn ∈ getChatHistory s.messages :=
        (List.dropLast_sublist _).mem hturn
      rw [getChatHistory] at hmem
      obtain ⟨m, hmf, hm⟩ := List.mem_map.mp hmem
      obtain ⟨hms, hid⟩ := List.mem_filter.mp hmf
      refine ⟨m, hms, ?_, ?_⟩
      · simpa using hid
      · rw [← hm]

/-- Claim C2, witness: a concrete send out of a three-message conversation
(the welcome message, one user turn, one bot turn). -/
theorem c2_witness :
    handleSend ⟨[⟨"welcome", Sender.bot, "w", "t"⟩,
        ⟨"a", Sender.user, "q1", "t"⟩, ⟨"b", Sender.bot, "a1", "t"⟩],
        "how?", false, false⟩ "n" "t2"
      = (⟨[⟨"welcome", Sender.bot, "w", "t"⟩,
          ⟨"a", Sender.user, "q1", "t"⟩, ⟨"b", Sender.bot, "a1", "t"⟩,
          ⟨"n", Sender.user, "how?", "t2"⟩], "", true, true⟩,
         some { message := "how?", chat_history := [⟨"user", "q1"⟩] })
    ∧ ({ message := "how?", chat_history := [⟨"user", "q1"⟩] }
        : RequestBody).message = "how?" := by
  refine ⟨by decide, ?_⟩
  have h := c2_request_shape
    ⟨[⟨"welcome", Sender.bot, "w", "t"⟩,
      ⟨"a", Sender.user, "q1", "t"⟩, ⟨"b", Sender.bot, "a1", "t"⟩],
      "how?", false, false⟩ "n" "t2"
    ⟨[⟨"welcome", Sender.bot, "w", "t"⟩,
      ⟨"a", Sender.user, "q1", "t"⟩, ⟨"b", Sender.bot, "a1", "t"⟩,
      ⟨"n", Sender.user, "how?", "t2"⟩], "", true, true⟩
    { message := "how?", chat_history := [⟨"user", "q1"⟩] } (by decide)
  rw [h.1]

/-- Claim C9: if the trimmed user input is empty or a request is already
in flight, `handleSend` returns immediately with the state unchanged and
no request body constructed. -/
theorem c9_early_return :
    ∀ (s : ChatState) (i t : String),
      jsTrim s.userInput = "" ∨ s.isLoading = true →
      handleSend s i t = (s, none) := by
  intro s i t h
  rw [handleSend, if_pos]
  rcases h with h | h
  · simp [h]
  · simp [h]

/-- Claim C9, witness: whitespace-only input leaves a concrete state
untouched. -/
theorem c9_witness :
    jsTrim "   " = ""
    ∧ handleSend ⟨[⟨"a", Sender.user, "q1", "t"⟩], "   ", false, false⟩
        "n" "t2"
      = (⟨[⟨"a", Sender.user, "q1", "t"⟩], "   ", false, false⟩, none) :=
  ⟨by decide,
   c9_early_return ⟨[⟨"a", Sender.user, "q1", "t"⟩], "   ", false, false⟩
     "n" "t2" (Or.inl (by decide))⟩

/-- Claim C7: the `Source.category` type admits only `backend`,
`frontend` and `other`; `getCategoryLabel` maps exactly `"backend"` to
`"Backend"`, exactly `"frontend"` to `"Frontend"` and every other string
to the default `"Documentation"`, and `getCategoryIcon` behaves
analogously, so no category value is unhandled. -/
theorem c7_category_mapping :
    (∀ c : Category,
      c = Category.backend ∨ c = Category.frontend ∨ c = Category.other)
    ∧ ∀ s : String,
        (getCategoryLabel s = "Backend" ↔ s = "backend")
        ∧ (getCategoryLabel s = "Frontend" ↔ s = "frontend")
        ∧ (s ≠ "backend" → s ≠ "frontend" →
            getCategoryLabel s = "Documentation")
        ∧ (getCategoryIcon s = "⚙️" ↔ s = "backend")
        ∧ (getCategoryIcon s = "💻" ↔ s = "frontend")
        ∧ (s ≠ "backend" → s ≠ "frontend" → getCategoryIcon s = "📄") := by
  constructor
  · intro c
    cases c
    · exact Or.inl rfl
    · exact Or.inr (Or.inl rfl)
    · exact Or.inr (Or.inr rfl)
  · intro s
    by_cases h1 : s = "backend"
    · subst h1; refine ⟨by decide, by decide, ?_, by decide, by decide, ?_⟩
      · intro h _; exact absurd rfl h
      · intro h _; exact absurd rfl h
    · by_cases h2 : s = "frontend"
      · subst h2
        refine ⟨by decide, by decide, ?_, by decide, by decide, ?_⟩
        · intro _ h; exact absurd rfl h
        · intro _ h; exact absurd rfl h
      · have e1 : (s == "backend") = false := by
          simpa using h1
        have e2 : (s == "frontend") = false := by
          simpa using h2
        refine ⟨?_, ?_, ?_, ?_, ?_, ?_⟩ <;>
          simp [getCategoryLabel, getCategoryIcon, e1, e2, h1, h2]

/-- Claim C7, witness: the unlisted category string `"other"` takes the
default arms. -/
theorem c7_witness :
    "other" ≠ "backend" ∧ "other" ≠ "frontend"
    ∧ getCategoryLabel "other" = "Documentation" :=
  ⟨by decide, by decide,
   (c7_category_mapping.2 "other").2.2.1 (by decide) (by decide)⟩

open Docs

/-- Claim C8: `filteredFiles` is an order-preserving subsequence of the
loaded files; with a non-`'all'` filter every returned file has that
category; with a non-blank query every returned file matches the search
predicate; every loaded file satisfying both active conditions is
returned; and with filter `'all'` and a blank query the result is exactly
the loaded file list. -/
theorem c8_filteredFiles :
    ∀ (d : DocumentationData) (q cf : String),
      List.Sublist (filteredFiles (some d) q cf) d.files
      ∧ (cf ≠ "all" → ∀ f ∈ filteredFiles (some d) q cf, f.category = cf)
      ∧ (jsTrim q ≠ "" → ∀ f ∈ filteredFiles (some d) q cf,
          matchesQuery f q = true)
      ∧ (∀ f ∈ d.files, (cf ≠ "all" → f.category = cf) →
          (jsTrim q ≠ "" → matchesQuery f q = true) →
          f ∈ filteredFiles (some d) q cf)
      ∧ (cf = "all" → jsTrim q = "" → filteredFiles (some d) q cf = d.files)
    := by
  intro d q cf
  by_cases hc : cf = "all" <;> by_cases hq : jsTrim q = ""
  · have e : filteredFiles (some d) q cf = d.files := by
      simp [filteredFiles, hc, hq]
    rw [e]
    exact ⟨List.Sublist.refl _,
      fun h => absurd hc h,
      fun h => absurd hq h,
      fun f hf _ _ => hf,
      fun _ _ => rfl⟩
  · have e : filteredFiles (some d) q cf
        = d.files.filter (fun f => matchesQuery f q) := by
      simp [filteredFiles, hc, hq]
    rw [e]
    refine ⟨List.filter_sublist _,
      fun h => absurd hc h,
      fun _ f hf => (List.mem_filter.mp hf).2,
      fun f hf _ hm => List.mem_filter.mpr ⟨hf, hm hq⟩,
      fun _ h => absurd h hq⟩
  · have e : filteredFiles (some d) q cf
        = d.files.filter (fun f => f.category == cf) := by
      simp [filteredFiles, hc, hq]
    rw [e]
    refine ⟨List.filter_sublist _,
      fun _ f hf => by simpa using (List.mem_filter.mp hf).2,
      fun h => absurd hq h,
      fun f hf hcat _ => List.mem_filter.mpr ⟨hf, by simpa using hcat hc⟩,
      fun h => absurd h hc⟩
  · have e : filteredFiles (some d) q cf
        = (d.files.filter (fun f => f.category == cf)).filter
            (fun f => matchesQuery f q) := by
      simp [filteredFiles, hc, hq]
    rw [e]
    refine ⟨((List.filter_sublist _).trans (List.filter_sublist _)),
      fun _ f hf => by
        simpa using (List.mem_filter.mp ((List.mem_filter.mp hf).1)).2,
      fun _ f hf => (List.mem_filter.mp hf).2,
      fun f hf hcat hm => List.mem_filter.mpr
        ⟨List.mem_filter.mpr ⟨hf, by simpa using hcat hc⟩, hm hq⟩,
      fun h => absurd h hc⟩

/-- Claim C8, witness: a concrete two-file data set, once with the
identity configuration and once with an active category filter and
query. -/
theorem c8_witness :
    jsTrim "" = ""
    ∧ filteredFiles
        (some ⟨[⟨"1", "Auth", "auth.php", "Backend", "src/auth.php",
                  "backend"⟩,
                ⟨"2", "Cart", "cart.vue", "Frontend", "src/cart.vue",
                  "frontend"⟩]⟩) "" "all"
      = [⟨"1", "Auth", "auth.php", "Backend", "src/auth.php", "backend"⟩,
         ⟨"2", "Cart", "cart.vue", "Frontend", "src/cart.vue", "frontend"⟩]
    ∧ (⟨"1", "Auth", "auth.php", "Backend", "src/auth.php", "backend"⟩
        : DocFile)
        ∈ filteredFiles
          (some ⟨[⟨"1", "Auth", "auth.php", "Backend", "src/auth.php",
                    "backend"⟩,
                  ⟨"2", "Cart", "cart.vue", "Frontend", "src/cart.vue",
                    "frontend"⟩]⟩) "auth" "backend" := by
  refine ⟨by decide, ?_, ?_⟩
  · exact (c8_filteredFiles
      ⟨[⟨"1", "Auth", "auth.php", "Backend", "src/auth.php", "backend"⟩,
        ⟨"2", "Cart", "cart.vue", "Frontend", "src/cart.vue",
          "frontend"⟩]⟩ "" "all").2.2.2.2 rfl (by decide)
  · exact (c8_filteredFiles
      ⟨[⟨"1", "Auth", "auth.php", "Backend", "src/auth.php", "backend"⟩,
        ⟨"2", "Cart", "cart.vue", "Frontend", "src/cart.vue",
          "frontend"⟩]⟩ "auth" "backend").2.2.2.1
      ⟨"1", "Auth", "auth.php", "Backend", "src/auth.php", "backend"⟩
      (by decide) (fun _ => rfl) (fun _ => by decide)

open RAG

/-- Claim C6 (spec-modelled): the Retriever's similarity threshold is an
inclusive lower bound — a result scoring exactly the threshold is kept,
one scoring strictly below is removed, and membership in the filtered
list is equivalent to scoring at least the threshold. -/
theorem c6_threshold_inclusive :
    ∀ (results : List RetrievalResult) (τ : ℚ) (r : RetrievalResult),
      r ∈ results →
        (r.relevance_score = τ → r ∈ thresholdFilter results τ)
        ∧ (r.relevance_score < τ → r ∉ thresholdFilter results τ)
        ∧ (r ∈ thresholdFilter results τ ↔ τ ≤ r.relevance_score) := by
  intro results τ r hr
  have key : ∀ x : RetrievalResult,
      (!decide (x.relevance_score < τ)) = true ↔ τ ≤ x.relevance_score := by
    intro x
    simp [not_lt]
  refine ⟨?_, ?_, ?_⟩
  · intro he
    exact List.mem_filter.mpr ⟨hr, (key r).mpr (le_of_eq he.symm)⟩
  · intro hlt hmem
    exact absurd hlt (not_lt.mpr ((key r).mp (List.mem_filter.mp hmem).2))
  · constructor
    · intro hmem
      exact (key r).mp (List.mem_filter.mp hmem).2
    · intro hle
      exact List.mem_filter.mpr ⟨hr, (key r).mpr hle⟩

/-- An element produced by taking the heads of a group list belongs to
one of the groups. -/
theorem mem_of_mem_filterMap_head {α : Type} {gs : List (List α)} {x : α}
    (hx : x ∈ gs.filterMap List.head?) : ∃ g ∈ gs, x ∈ g := by
  obtain ⟨g, hg, hh⟩ := List.mem_filterMap.mp hx
  cases g with
  | nil => simp at hh
  | cons a t =>
    have : a = x := by simpa using hh
    exact ⟨a :: t, hg, this ▸ List.mem_cons_self a t⟩

/-- The heads taken in one round are at most the total number of items
in the groups. -/
theorem picks_length_le_sum {α : Type} :
    ∀ gs : List (List α),
      (gs.filterMap List.head?).length ≤ (gs.map List.length).sum := by
  intro gs
  induction gs with
  | nil => simp
  | cons g t ih =>
    cases g with
    | nil => simpa using ih
    | cons a g' =>
      simp only [List.filterMap_cons, List.head?, List.map_cons,
        List.sum_cons, List.length_cons]
      omega

/-- No heads can be taken exactly when the groups hold no items. -/
theorem picks_empty_iff {α : Type} :
    ∀ gs : List (List α),
      (gs.filterMap List.head?).isEmpty = true
        ↔ (gs.map List.length).sum = 0 := by
  intro gs
  induction gs with
  | nil => simp
  | cons g t ih =>
    cases g with
    | nil => simpa using ih
    | cons a g' => simp

/-- Dropping one item from every group removes exactly the number of
heads taken in the round. -/
theorem sum_map_drop_one {α : Type} :
    ∀ gs : List (List α),
      ((gs.map (fun g => g.drop 1)).map List.length).sum
        = (gs.map List.length).sum - (gs.filterMap List.head?).length := by
  intro gs
  induction gs with
  | nil => simp
  | cons g t ih =>
    cases g with
    | nil => simpa using ih
    | cons a g' =>
      have ht := picks_length_le_sum t
      simp only [List.map_cons, List.drop_succ_cons, List.drop_zero,
        List.sum_cons, List.filterMap_cons, List.head?, List.length_cons]
      omega

/-- Length of the round-robin output: the target count, capped by the
total number of items available across the groups. -/
theorem roundRobinFuel_length {α : Type} :
    ∀ (fuel : Nat) (gs : List (List α)) (n : Nat), n ≤ fuel →
      (roundRobinFuel fuel gs n).length
        = min n ((gs.map List.length).sum) := by
  intro fuel
  induction fuel with
  | zero =>
    intro gs n hn
    have hz : n = 0 := Nat.le_zero.mp hn
    subst hz
    simp [roundRobinFuel]
  | succ fuel ih =>
    intro gs n hn
    cases n with
    | zero => simp [roundRobinFuel]
    | succ n' =>
      have hunf : roundRobinFuel (fuel + 1) gs (n' + 1)
          = (if (gs.filterMap List.head?).isEmpty then []
             else if n' + 1 ≤ (gs.filterMap List.head?).length then
               (gs.filterMap List.head?).take (n' + 1)
             else (gs.filterMap List.head?) ++
               roundRobinFuel fuel (gs.map (fun g => g.drop 1))
                 (n' + 1 - (gs.filterMap List.head?).length)) := rfl
      rw [hunf]
      by_cases hp : (gs.filterMap List.head?).isEmpty = true
      · rw [if_pos hp]
        have hsum := (picks_empty_iff gs).mp hp
        simp [hsum]
      · rw [if_neg hp]
        have hlen : 0 < (gs.filterMap List.head?).length := by
          rcases hs : gs.filterMap List.head? with _ | ⟨a, t⟩
          · rw [hs] at hp
            exact absurd rfl hp
          · simp
        have hle := picks_length_le_sum gs
        by_cases hk : n' + 1 ≤ (gs.filterMap List.head?).length
        · rw [if_pos hk, List.length_take]
          omega
        · rw [if_neg hk, List.length_append,
            ih _ _ (by omega), sum_map_drop_one]
          omega

/-- Filter characterization of round-robin: when exactly one group can
contain elements satisfying `p`, the `p`-elements of the output form a
prefix of that group. -/
theorem roundRobinFuel_filter {α : Type} (p : α → Bool) :
    ∀ (fuel n : Nat) (A : List (List α)) (B : List α) (C : List (List α)),
      (∀ x ∈ B, p x = true) →
      (∀ g ∈ A, ∀ x ∈ g, p x = false) →
      (∀ g ∈ C, ∀ x ∈ g, p x = false) →
      ∃ m, (roundRobinFuel fuel (A ++ B :: C) n).filter p = B.take m := by
  intro fuel
  induction fuel with
  | zero =>
    intro n A B C _ _ _
    exact ⟨0, by simp [roundRobinFuel]⟩
  | succ fuel ih =>
    intro n A B C hB hA hC
    cases n with
    | zero => exact ⟨0, by simp [roundRobinFuel]⟩
    | succ n' =>
      have hunf : roundRobinFuel (fuel + 1) (A ++ B :: C) (n' + 1)
          = (if ((A ++ B :: C).filterMap List.head?).isEmpty then []
             else if n' + 1 ≤
                 ((A ++ B :: C).filterMap List.head?).length then
               ((A ++ B :: C).filterMap List.head?).take (n' + 1)
             else ((A ++ B :: C).filterMap List.head?) ++
               roundRobinFuel fuel
                 ((A ++ B :: C).map (fun g => g.drop 1))
                 (n' + 1 -
                   ((A ++ B :: C).filterMap List.head?).length)) := rfl
      rw [hunf]
      have hfpA : (A.filterMap List.head?).filter p = [] := by
        rw [List.filter_eq_nil_iff]
        intro x hx
        obtain ⟨g, hg, hxg⟩ := mem_of_mem_filterMap_head hx
        simp [hA g hg x hxg]
      have hfpC : (C.filterMap List.head?).filter p = [] := by
        rw [List.filter_eq_nil_iff]
        intro x hx
        obtain ⟨g, hg, hxg⟩ := mem_of_mem_filterMap_head hx
        simp [hC g hg x hxg]
      by_cases hp : ((A ++ B :: C).filterMap List.head?).isEmpty = true
      · rw [if_pos hp]
        exact ⟨0, by simp⟩
      · rw [if_neg hp]
        cases B with
        | nil =>
          have hfp : ((A ++ ([] : List α) :: C).filterMap
              List.head?).filter p = [] := by
            rw [List.filterMap_append, List.filter_append, hfpA]
            simpa using hfpC
          by_cases hk : n' + 1 ≤
              ((A ++ ([] : List α) :: C).filterMap List.head?).length
          · rw [if_pos hk]
            refine ⟨0, ?_⟩
            rw [List.take_zero, List.filter_eq_nil_iff]
            intro x hx
            have hxp := List.mem_of_mem_take hx
            have := List.filter_eq_nil_iff.mp hfp
            exact this x hxp
          · rw [if_neg hk]
            have hmap : (A ++ ([] : List α) :: C).map (fun g => g.drop 1)
                = A.map (fun g => g.drop 1) ++
                  ([] : List α) :: C.map (fun g => g.drop 1) := by
              simp
            obtain ⟨m', hrec⟩ := ih
              (n' + 1 - ((A ++ ([] : List α) :: C).filterMap
                List.head?).length)
              (A.map (fun g => g.drop 1)) ([] : List α)
              (C.map (fun g => g.drop 1))
              (by intro x hx; simp at hx)
              (by
                intro g hg x hx
                obtain ⟨g₀, hg₀, rfl⟩ := List.mem_map.mp hg
                exact hA g₀ hg₀ x (List.drop_subset 1 g₀ hx))
              (by
                intro g hg x hx
                obtain ⟨g₀, hg₀, rfl⟩ := List.mem_map.mp hg
                exact hC g₀ hg₀ x (List.drop_subset 1 g₀ hx))
            refine ⟨0, ?_⟩
            rw [List.filter_append, hfp, hmap, hrec]
            simp
        | cons b tB =>
          have hfp : ((A ++ (b :: tB) :: C).filterMap
              List.head?).filter p = [b] := by
            rw [List.filterMap_append, List.filter_append, hfpA]
            have hb : p b = true := hB b (List.mem_cons_self b tB)
            simp [List.filter_cons, hb, hfpC]
          by_cases hk : n' + 1 ≤
              ((A ++ (b :: tB) :: C).filterMap List.head?).length
          · rw [if_pos hk]
            have hpre : (((A ++ (b :: tB) :: C).filterMap
                  List.head?).take (n' + 1)).filter p
                <+: ((A ++ (b :: tB) :: C).filterMap
                  List.head?).filter p :=
              ( List.take_prefix _ _).filter p
            rw [hfp] at hpre
            have hb1 : ([b] : List α) = (b :: tB).take 1 := rfl
            rw [hb1] at hpre
            have heq := List.prefix_iff_eq_take.mp hpre
            rw [List.take_take] at heq
            exact ⟨_, heq⟩
          · rw [if_neg hk]
            have hmap : (A ++ (b :: tB) :: C).map (fun g => g.drop 1)
                = A.map (fun g => g.drop 1) ++
                  tB :: C.map (fun g => g.drop 1) := by
              simp
            obtain ⟨m', hrec⟩ := ih
              (n' + 1 - ((A ++ (b :: tB) :: C).filterMap
                List.head?).length)
              (A.map (fun g => g.drop 1)) tB
              (C.map (fun g => g.drop 1))
              (fun x hx => hB x (List.mem_cons_of_mem b hx))
              (by
                intro g hg x hx
                obtain ⟨g₀, hg₀, rfl⟩ := List.mem_map.mp hg
                exact hA g₀ hg₀ x (List.drop_subset 1 g₀ hx))
              (by
                intro g hg x hx
                obtain ⟨g₀, hg₀, rfl⟩ := List.mem_map.mp hg
                exact hC g₀ hg₀ x (List.drop_subset 1 g₀ hx))
            refine ⟨m' + 1, ?_⟩
            rw [List.filter_append, hfp, hmap, hrec]
            rfl

/-- The three category groups of `diversify` partition the input. -/
theorem diversify_groups_sum (results : List RetrievalResult) :
    (([results.filter (byCategory Category.backend),
        results.filter (byCategory Category.frontend),
        results.filter (byCategory Category.other)]
        : List (List RetrievalResult)).map List.length).sum
      = results.length := by
  induction results with
  | nil => rfl
  | cons r t ih =>
    cases hcat : r.chunk.category <;>
      simp only [List.map, List.sum_cons, List.filter_cons, byCategory,
        hcat, List.length_cons] at ih ⊢ <;>
      simp_all <;> omega

/-- A result in a category group of a different category fails the
membership test of that other category. -/
theorem byCategory_false_of_ne {c c' : Category} (h : c ≠ c')
    (r : RetrievalResult) (hr : byCategory c r = true) :
    byCategory c' r = false := by
  have hcat : r.chunk.category = c := by simpa [byCategory] using hr
  rw [byCategory, hcat]
  exact beq_eq_false_iff_ne.mpr h

/-- Claim C3 (spec-modelled): `diversify` groups results by category and
round-robins over the groups in the priority order backend, frontend,
other, stopping at the target count or exhaustion: the worked example
from the spec holds, the output length is the target capped by the number
of results, within each category the output is a prefix of that
category's score-ordered group (order preserved, nothing reordered), and
descending score order within each category is preserved. -/
theorem c3_diversify_round_robin :
    diversify
        [⟨⟨0, "t1", "p1", "f1", Category.backend, 0⟩, mkRat 9 10⟩,
         ⟨⟨1, "t2", "p2", "f2", Category.backend, 0⟩, mkRat 8 10⟩,
         ⟨⟨2, "t3", "p3", "f3", Category.frontend, 0⟩, mkRat 7 10⟩] 2
      = [⟨⟨0, "t1", "p1", "f1", Category.backend, 0⟩, mkRat 9 10⟩,
         ⟨⟨2, "t3", "p3", "f3", Category.frontend, 0⟩, mkRat 7 10⟩]
    ∧ ∀ (results : List RetrievalResult) (target_count : Nat),
        (diversify results target_count).length
          = min target_count results.length
        ∧ (∀ c : Category, ∃ m,
            (diversify results target_count).filter (byCategory c)
              = (results.filter (byCategory c)).take m)
        ∧ (List.Pairwise
              (fun a b : RetrievalResult =>
                b.relevance_score ≤ a.relevance_score) results →
            ∀ c : Category,
              List.Pairwise
                (fun a b : RetrievalResult =>
                  b.relevance_score ≤ a.relevance_score)
                ((diversify results target_count).filter (byCategory c)))
    := by
  constructor
  · decide
  · intro results target_count
    have hfilter : ∀ c : Category, ∃ m,
        (diversify results target_count).filter (byCategory c)
          = (results.filter (byCategory c)).take m := by
      intro c
      cases c with
      | backend =>
        exact roundRobinFuel_filter (byCategory Category.backend)
          target_count target_count []
          (results.filter (byCategory Category.backend))
          [results.filter (byCategory Category.frontend),
           results.filter (byCategory Category.other)]
          (fun x hx => (List.mem_filter.mp hx).2)
          (by intro g hg; simp at hg)
          (by
            intro g hg x hx
            rcases (by simpa using hg :
                g = results.filter (byCategory Category.frontend)
                ∨ g = results.filter (byCategory Category.other)) with
              rfl | rfl
            · exact byCategory_false_of_ne (by decide) x
                (List.mem_filter.mp hx).2
            · exact byCategory_false_of_ne (by decide) x
                (List.mem_filter.mp hx).2)
      | frontend =>
        exact roundRobinFuel_filter (byCategory Category.frontend)
          target_count target_count
          [results.filter (byCategory Category.backend)]
          (results.filter (byCategory Category.frontend))
          [results.filter (byCategory Category.other)]
          (fun x hx => (List.mem_filter.mp hx).2)
          (by
            intro g hg x hx
            rcases (by simpa using hg :
                g = results.filter (byCategory Category.backend)) with rfl
            exact byCategory_false_of_ne (by decide) x
              (List.mem_filter.mp hx).2)
          (by
            intro g hg x hx
            rcases (by simpa using hg :
                g = results.filter (byCategory Category.other)) with rfl
            exact byCategory_false_of_ne (by decide) x
              (List.mem_filter.mp hx).2)
      | other =>
        exact roundRobinFuel_filter (byCategory Category.other)
          target_count target_count
          [results.filter (byCategory Category.backend),
           results.filter (byCategory Category.frontend)]
          (results.filter (byCategory Category.other)) []
          (fun x hx => (List.mem_filter.mp hx).2)
          (by
            intro g hg x hx
            rcases (by simpa using hg :
                g = results.filter (byCategory Category.backend)
                ∨ g = results.filter (byCategory Category.frontend)) with
              rfl | rfl
            · exact byCategory_false_of_ne (by decide) x
                (List.mem_filter.mp hx).2
            · exact byCategory_false_of_ne (by decide) x
                (List.mem_filter.mp hx).2)
          (by intro g hg; simp at hg)
    refine ⟨?_, hfilter, ?_⟩
    · rw [diversify, roundRobin,
        roundRobinFuel_length target_count _ target_count (le_refl _),
        diversify_groups_sum]
    · intro hsorted c
      obtain ⟨m, hm⟩ := hfilter c
      rw [hm]
      exact List.Pairwise.sublist
        ((List.take_sublist m _).trans (List.filter_sublist results))
        hsorted

/-- Claim C3, witness: the spec's worked example is score-sorted, and the
backend items of its diversified output stay in descending score order. -/
theorem c3_witness :
    List.Pairwise
      (fun a b : RetrievalResult =>
        b.relevance_score ≤ a.relevance_score)
      [⟨⟨0, "t1", "p1", "f1", Category.backend, 0⟩, mkRat 9 10⟩,
       ⟨⟨1, "t2", "p2", "f2", Category.backend, 0⟩, mkRat 8 10⟩,
       ⟨⟨2, "t3", "p3", "f3", Category.frontend, 0⟩, mkRat 7 10⟩]
    ∧ List.Pairwise
        (fun a b : RetrievalResult =>
          b.relevance_score ≤ a.relevance_score)
        ((diversify
            [⟨⟨0, "t1", "p1", "f1", Category.backend, 0⟩, mkRat 9 10⟩,
             ⟨⟨1, "t2", "p2", "f2", Category.backend, 0⟩, mkRat 8 10⟩,
             ⟨⟨2, "t3", "p3", "f3", Category.frontend, 0⟩, mkRat 7 10⟩]
            2).filter (byCategory Category.backend)) :=
  ⟨by decide,
   (c3_diversify_round_robin.2
      [⟨⟨0, "t1", "p1", "f1", Category.backend, 0⟩, mkRat 9 10⟩,
       ⟨⟨1, "t2", "p2", "f2", Category.backend, 0⟩, mkRat 8 10⟩,
       ⟨⟨2, "t3", "p3", "f3", Category.frontend, 0⟩, mkRat 7 10⟩]
      2).2.2 (by decide) Category.backend⟩

/-- The candidate ordering of `search` is transitive. -/
theorem searchLE_trans :
    ∀ a b c : Nat × ℚ, searchLE a b → searchLE b c → searchLE a c := by
  intro a b c hab hbc
  simp only [searchLE, decide_eq_true_eq] at hab hbc ⊢
  rcases hab with h1 | ⟨h1, h1'⟩ <;> rcases hbc with h2 | ⟨h2, h2'⟩
  · exact Or.inl (lt_trans h2 h1)
  · exact Or.inl (h2 ▸ h1)
  · exact Or.inl (h1 ▸ h2)
  · exact Or.inr ⟨h1.trans h2, le_trans h1' h2'⟩

/-- The candidate ordering of `search` is total. -/
theorem searchLE_total :
    ∀ a b : Nat × ℚ, searchLE a b || searchLE b a := by
  intro a b
  simp only [searchLE, Bool.or_eq_true, decide_eq_true_eq]
  rcases lt_trichotomy a.2 b.2 with h | h | h
  · exact Or.inr (Or.inl h)
  · rcases Nat.le_total a.1 b.1 with h' | h'
    · exact Or.inl (Or.inr ⟨h, h'⟩)
    · exact Or.inr (Or.inr ⟨h.symm, h'⟩)
  · exact Or.inl (Or.inl h)

/-- Filtering an enumeration on a predicate of the payload has the same
length as filtering the underlying list. -/
theorem length_filter_enumFrom {α : Type} (p : α → Bool) :
    ∀ (l : List α) (n : Nat),
      ((List.enumFrom n l).filter (fun q => p q.2)).length
        = (l.filter p).length := by
  intro l
  induction l with
  | nil => intro n; rfl
  | cons a t ih =>
    intro n
    rw [List.enumFrom_cons]
    cases hpa : p a <;> simp [List.filter_cons, hpa, ih]

/-- Claim C4 (spec-modelled): for every index of `N` chunks and every `k`
with `1 ≤ k ≤ N`, unfiltered `search` returns exactly `k` pairs, each
chunk id valid in `0..N-1`, in strictly descending score order with ties
broken by strictly ascending chunk id. -/
theorem c4_search_topk :
    ∀ (index : List IndexEntry) (query : List ℚ) (k : Nat),
      1 ≤ k → k ≤ index.length →
        (search index query k none).length = k
        ∧ (∀ p ∈ search index query k none, p.1 < index.length)
        ∧ List.Pairwise
            (fun a b : Nat × ℚ => b.2 < a.2 ∨ (a.2 = b.2 ∧ a.1 < b.1))
            (search index query k none) := by
  intro index query k _ hk
  have hcand : index.enum.filter (fun p => categoryMatches none p.2)
      = index.enum := by
    simp [categoryMatches]
  refine ⟨?_, ?_, ?_⟩
  · rw [search]
    simp only [hcand, List.length_take, List.length_mergeSort,
      List.length_map, List.enum_length]
    omega
  · intro p hp
    rw [search] at hp
    simp only [hcand] at hp
    have hp2 := List.mem_mergeSort.mp (List.mem_of_mem_take hp)
    obtain ⟨cand, hcand2, heq⟩ := List.mem_map.mp hp2
    have hid : index[cand.1]? = some cand.2 :=
      List.mem_enum_iff_getElem?.mp hcand2
    have hlt : cand.1 < index.length :=
      (List.getElem?_eq_some_iff.mp hid).1
    rw [← heq]
    exact hlt
  · rw [search]
    simp only [hcand]
    set scored := index.enum.map (fun p => (p.1, cosineSim query p.2.vec))
      with hscored
    have hsorted : List.Pairwise (fun a b => searchLE a b)
        ((scored.mergeSort searchLE).take k) :=
      List.Pairwise.sublist (List.take_sublist _ _)
        (List.sorted_mergeSort searchLE_trans searchLE_total scored)
    have hfst : scored.map Prod.fst = List.range index.length := by
      rw [hscored, List.map_map]
      have : (Prod.fst ∘ fun p : Nat × IndexEntry =>
          (p.1, cosineSim query p.2.vec)) = Prod.fst := rfl
      rw [this, List.enum_map_fst]
    have hnodup : (((scored.mergeSort searchLE).take k).map
        Prod.fst).Nodup := by
      refine List.Sublist.nodup
        (List.Sublist.map Prod.fst (List.take_sublist _ _)) ?_
      refine ((List.mergeSort_perm scored searchLE).map
        Prod.fst).nodup_iff.mpr ?_
      rw [hfst]
      exact List.nodup_range _
    have hne : List.Pairwise (fun a b : Nat × ℚ => a.1 ≠ b.1)
        ((scored.mergeSort searchLE).take k) :=
      List.pairwise_map.mp hnodup
    refine (hsorted.and hne).imp ?_
    intro a b hab
    obtain ⟨h1, h2⟩ := hab
    simp only [searchLE, decide_eq_true_eq] at h1
    rcases h1 with h1 | ⟨h1, h1'⟩
    · exact Or.inl h1
    · exact Or.inr ⟨h1, lt_of_le_of_ne h1' h2⟩

/-- Claim C4, witness: a two-chunk index queried with k = 2. -/
theorem c4_witness :
    1 ≤ 2
    ∧ 2 ≤ ([⟨[mkRat 1 2], Category.backend⟩,
            ⟨[mkRat 1 3], Category.frontend⟩]
            : List IndexEntry).length
    ∧ (search [⟨[mkRat 1 2], Category.backend⟩,
               ⟨[mkRat 1 3], Category.frontend⟩] [1] 2 none).length = 2 :=
  ⟨by decide, by decide,
   (c4_search_topk [⟨[mkRat 1 2], Category.backend⟩,
      ⟨[mkRat 1 3], Category.frontend⟩] [1] 2
      (by decide) (by decide)).1⟩

/-- Claim C5 (spec-modelled): `search` on an empty index, or with `k = 0`,
returns the empty sequence (it is a total function, so it never raises),
and in general it returns `min k m` results where `m` is the number of
chunks matching the category filter — fewer than `k` only when fewer than
`k` chunks match. -/
theorem c5_search_safe :
    ∀ (query : List ℚ) (k : Nat) (filt : Option Category)
      (index : List IndexEntry),
      search [] query k filt = []
      ∧ search index query 0 filt = []
      ∧ (search index query k filt).length
          = min k ((index.filter (categoryMatches filt)).length) := by
  intro query k filt index
  refine ⟨?_, ?_, ?_⟩
  · rw [search]
    simp
  · rw [search]
    simp
  · rw [search]
    simp only [List.length_take, List.length_mergeSort, List.length_map]
    rw [List.enum_eq_enumFrom, length_filter_enumFrom]

/-- Claim C5, witness: a concrete application of the general length law
(the first two conjuncts are closed already; this exercises the `min`). -/
theorem c5_witness :
    (search [⟨[mkRat 1 2], Category.backend⟩] [1] 3 none).length
      = min 3 (([⟨[mkRat 1 2], Category.backend⟩]
          : List IndexEntry).filter (categoryMatches none)).length :=
  (c5_search_safe [1] 3 none [⟨[mkRat 1 2], Category.backend⟩]).2.2

/-- In the out-of-fence state the pending fence content is irrelevant. -/
theorem fenceItemsAux_false_acc (ls : List String) (acc acc' : List String) :
    fenceItemsAux ls false acc = fenceItemsAux ls false acc' := by
  cases ls with
  | nil => rfl
  | cons l t => rfl

/-- One-pass parsing agrees, on titles and code blocks, with resolving
the fences first and then grouping blocks under the headings. -/
theorem foldl_step_ref :
    ∀ (lines : List String) (secs : List MdSection)
      (cur : Option (String × List String)) (cc : List String)
      (flag : Bool) (acc : List String) (mt : String),
      viewFold (lines.foldl step ⟨secs, cur, cc, flag, acc, mt⟩)
        = secs.map sectionTitleBlocks
          ++ refSectionsAux (fenceItemsAux lines flag acc) cur := by
  intro lines
  induction lines with
  | nil =>
    intro secs cur cc flag acc mt
    cases flag <;> cases cur <;>
      simp [viewFold, viewCur, fenceItemsAux, refSectionsAux]
  | cons l ls ih =>
    intro secs cur cc flag acc mt
    rw [List.foldl_cons]
    by_cases hf : jsStartsWith (jsTrim l) "```" = true
    · cases flag with
      | false =>
        have hstep : step ⟨secs, cur, cc, false, acc, mt⟩ l
            = ⟨secs, cur, cc, true, [], mt⟩ := by
          simp [step, hf]
        have hfi : fenceItemsAux (l :: ls) false acc
            = fenceItemsAux ls true [] := by
          simp [fenceItemsAux, hf]
        rw [hstep, hfi, ih]
      | true =>
        have hfi : fenceItemsAux (l :: ls) true acc
            = .code (joinLines acc) :: fenceItemsAux ls false [] := by
          simp [fenceItemsAux, hf]
        cases cur with
        | some sc =>
          obtain ⟨t, cbs⟩ := sc
          have hstep : step ⟨secs, some (t, cbs), cc, true, acc, mt⟩ l
              = ⟨secs, some (t, cbs ++ [joinLines acc]),
                  cc ++ ["___CODE_BLOCK_"
                    ++ Nat.repr ((cbs ++ [joinLines acc]).length - 1)
                    ++ "___"],
                  false, acc, mt⟩ := by
            simp [step, hf]
          rw [hstep, hfi, ih, fenceItemsAux_false_acc ls acc [],
            refSectionsAux]
        | none =>
          have hstep : step ⟨secs, none, cc, true, acc, mt⟩ l
              = ⟨secs, none, cc ++ ["___CODE_BLOCK_NaN___"],
                  false, acc, mt⟩ := by
            simp [step, hf]
          rw [hstep, hfi, ih, fenceItemsAux_false_acc ls acc [],
            refSectionsAux]
    · cases flag with
      | true =>
        have hstep : step ⟨secs, cur, cc, true, acc, mt⟩ l
            = ⟨secs, cur, cc, true, acc ++ [l], mt⟩ := by
          simp [step, hf]
        have hfi : fenceItemsAux (l :: ls) true acc
            = fenceItemsAux ls true (acc ++ [l]) := by
          simp [fenceItemsAux, hf]
        rw [hstep, hfi, ih]
      | false =>
        have hfi : fenceItemsAux (l :: ls) false acc
            = .text l :: fenceItemsAux ls false [] := by
          simp [fenceItemsAux, hf]
        rw [hfi]
        by_cases hh1 : (jsStartsWith l "# " && !(jsStartsWith l "## "))
            = true
        · have hns : jsStartsWith l "## " = false := by
            have h' : jsStartsWith l "# " = true
                ∧ jsStartsWith l "## " = false := by simpa using hh1
            exact h'.2
          have hstep : step ⟨secs, cur, cc, false, acc, mt⟩ l
              = ⟨secs, cur, cc, false, acc, jsTrim (jsDrop l 2)⟩ := by
            simp [step, hf, hh1]
          rw [hstep, ih, fenceItemsAux_false_acc ls acc []]
          simp [refSectionsAux, hns]
        · by_cases hh2 : jsStartsWith l "## " = true
          · by_cases hov : (jsTrim (jsDrop l 3) == "Overview") = true
            · have hstep : step ⟨secs, cur, cc, false, acc, mt⟩ l
                  = ⟨secs, none, [], false, acc, mt⟩ := by
                simp [step, hf, hh1, hh2, hov]
              rw [hstep, ih, fenceItemsAux_false_acc ls acc []]
              simp [refSectionsAux, hh2, hov]
            · cases cur with
              | some sc =>
                obtain ⟨t0, cbs0⟩ := sc
                have hstep : step ⟨secs, some (t0, cbs0), cc, false,
                    acc, mt⟩ l
                    = ⟨secs ++ [⟨t0, jsTrim (joinLines cc), cbs0⟩],
                        some (jsTrim (jsDrop l 3), []), [],
                        false, acc, mt⟩ := by
                  simp [step, hf, hh1, hh2, hov]
                rw [hstep, ih, fenceItemsAux_false_acc ls acc []]
                simp [refSectionsAux, hh2, hov, sectionTitleBlocks]
              | none =>
                have hstep : step ⟨secs, none, cc, false, acc, mt⟩ l
                    = ⟨secs, some (jsTrim (jsDrop l 3), []), [],
                        false, acc, mt⟩ := by
                  simp [step, hf, hh1, hh2, hov]
                rw [hstep, ih, fenceItemsAux_false_acc ls acc []]
                simp [refSectionsAux, hh2, hov]
          · have hb : jsStartsWith l "## " = false := by simpa using hh2
            have ha : jsStartsWith l "# " = false := by
              cases hq : jsStartsWith l "# " with
              | false => rfl
              | true => exact absurd (by simp [hq, hb]) hh1
            cases cur with
            | some sc =>
              obtain ⟨t0, cbs0⟩ := sc
              have hstep : step ⟨secs, some (t0, cbs0), cc, false,
                  acc, mt⟩ l
                  = ⟨secs, some (t0, cbs0), cc ++ [l], false,
                      acc, mt⟩ := by
                simp [step, hf, ha, hb]
              rw [hstep, ih, fenceItemsAux_false_acc ls acc []]
              simp [refSectionsAux, hb]
            | none =>
              have hstep : step ⟨secs, none, cc, false, acc, mt⟩ l
                  = ⟨secs, none, cc, false, acc, mt⟩ := by
                simp [step, hf, ha, hb]
              rw [hstep, ih, fenceItemsAux_false_acc ls acc []]
              simp [refSectionsAux, hb]

/-- One parser step only creates section titles taken from a
non-`Overview` heading of the consumed line. -/
theorem step_title (st : ParseState) (l : String) (ls0 : List String)
    (hs : ∀ s ∈ st.sections, goodTitle ls0 s.title)
    (hc : ∀ t cbs, st.currentSection = some (t, cbs) → goodTitle ls0 t) :
    (∀ s ∈ (step st l).sections, goodTitle (ls0 ++ [l]) s.title)
    ∧ (∀ t cbs, (step st l).currentSection = some (t, cbs) →
        goodTitle (ls0 ++ [l]) t) := by
  have mono : ∀ t, goodTitle ls0 t → goodTitle (ls0 ++ [l]) t := by
    rintro t ⟨l', hl', h1, h2, h3⟩
    exact ⟨l', List.mem_append_left _ hl', h1, h2, h3⟩
  obtain ⟨secs, cur, cc, flag, acc, mt⟩ := st
  simp only [ParseState.sections, ParseState.currentSection] at hs hc ⊢
  by_cases hf : jsStartsWith (jsTrim l) "```" = true
  · cases flag with
    | false =>
      have he : step ⟨secs, cur, cc, false, acc, mt⟩ l
          = ⟨secs, cur, cc, true, [], mt⟩ := by simp [step, hf]
      rw [he]
      exact ⟨fun s hsm => mono _ (hs s hsm),
        fun t cbs h => mono _ (hc t cbs h)⟩
    | true =>
      cases cur with
      | some sc =>
        obtain ⟨t0, cbs0⟩ := sc
        have he : step ⟨secs, some (t0, cbs0), cc, true, acc, mt⟩ l
            = ⟨secs, some (t0, cbs0 ++ [joinLines acc]),
                cc ++ ["___CODE_BLOCK_"
                  ++ Nat.repr ((cbs0 ++ [joinLines acc]).length - 1)
                  ++ "___"], false, acc, mt⟩ := by
          simp [step, hf]
        rw [he]
        refine ⟨fun s hsm => mono _ (hs s hsm), fun t cbs h => ?_⟩
        obtain ⟨h1, -⟩ : t0 = t ∧ cbs0 ++ [joinLines acc] = cbs := by
          simpa using h
        exact h1 ▸ mono _ (hc t0 cbs0 rfl)
      | none =>
        have he : step ⟨secs, none, cc, true, acc, mt⟩ l
            = ⟨secs, none, cc ++ ["___CODE_BLOCK_NaN___"],
                false, acc, mt⟩ := by
          simp [step, hf]
        rw [he]
        refine ⟨fun s hsm => mono _ (hs s hsm), fun t cbs h => ?_⟩
        simp at h
  · cases flag with
    | true =>
      have he : step ⟨secs, cur, cc, true, acc, mt⟩ l
          = ⟨secs, cur, cc, true, acc ++ [l], mt⟩ := by simp [step, hf]
      rw [he]
      exact ⟨fun s hsm => mono _ (hs s hsm),
        fun t cbs h => mono _ (hc t cbs h)⟩
    | false =>
      by_cases hh1 : (jsStartsWith l "# " && !(jsStartsWith l "## "))
          = true
      · have he : step ⟨secs, cur, cc, false, acc, mt⟩ l
            = ⟨secs, cur, cc, false, acc, jsTrim (jsDrop l 2)⟩ := by
          simp [step, hf, hh1]
        rw [he]
        exact ⟨fun s hsm => mono _ (hs s hsm),
          fun t cbs h => mono _ (hc t cbs h)⟩
      · by_cases hh2 : jsStartsWith l "## " = true
        · by_cases hov : (jsTrim (jsDrop l 3) == "Overview") = true
          · have he : step ⟨secs, cur, cc, false, acc, mt⟩ l
                = ⟨secs, none, [], false, acc, mt⟩ := by
              simp [step, hf, hh1, hh2, hov]
            rw [he]
            refine ⟨fun s hsm => mono _ (hs s hsm), fun t cbs h => ?_⟩
            simp at h
          · have hnew : goodTitle (ls0 ++ [l]) (jsTrim (jsDrop l 3)) := by
              refine ⟨l, List.mem_append_right _
                (List.mem_singleton.mpr rfl), hh2, rfl, ?_⟩
              intro heq
              rw [heq] at hov
              simp at hov
            cases cur with
            | some sc =>
              obtain ⟨t0, cbs0⟩ := sc
              have he : step ⟨secs, some (t0, cbs0), cc, false,
                  acc, mt⟩ l
                  = ⟨secs ++ [⟨t0, jsTrim (joinLines cc), cbs0⟩],
                      some (jsTrim (jsDrop l 3), []), [],
                      false, acc, mt⟩ := by
                simp [step, hf, hh1, hh2, hov]
              rw [he]
              constructor
              · intro s hsm
                rcases List.mem_append.mp hsm with h | h
                · exact mono _ (hs s h)
                · rw [List.mem_singleton.mp h]
                  exact mono _ (hc t0 cbs0 rfl)
              · intro t cbs h
                obtain ⟨h1, -⟩ : jsTrim (jsDrop l 3) = t
                    ∧ ([] : List String) = cbs := by simpa using h
                exact h1 ▸ hnew
            | none =>
              have he : step ⟨secs, none, cc, false, acc, mt⟩ l
                  = ⟨secs, some (jsTrim (jsDrop l 3), []), [],
                      false, acc, mt⟩ := by
                simp [step, hf, hh1, hh2, hov]
              rw [he]
              refine ⟨fun s hsm => mono _ (hs s hsm), fun t cbs h => ?_⟩
              obtain ⟨h1, -⟩ : jsTrim (jsDrop l 3) = t
                  ∧ ([] : List String) = cbs := by simpa using h
              exact h1 ▸ hnew
        · have hb : jsStartsWith l "## " = false := by simpa using hh2
          have ha : jsStartsWith l "# " = false := by
            cases hq : jsStartsWith l "# " with
            | false => rfl
            | true => exact absurd (by simp [hq, hb]) hh1
          cases cur with
          | some sc =>
            obtain ⟨t0, cbs0⟩ := sc
            have he : step ⟨secs, some (t0, cbs0), cc, false,
                acc, mt⟩ l
                = ⟨secs, some (t0, cbs0), cc ++ [l], false,
                    acc, mt⟩ := by
              simp [step, hf, ha, hb]
            rw [he]
            refine ⟨fun s hsm => mono _ (hs s hsm), fun t cbs h => ?_⟩
            obtain ⟨h1, -⟩ : t0 = t ∧ cbs0 = cbs := by simpa using h
            exact h1 ▸ mono _ (hc t0 cbs0 rfl)
          | none =>
            have he : step ⟨secs, none, cc, false, acc, mt⟩ l
                = ⟨secs, none, cc, false, acc, mt⟩ := by
              simp [step, hf, ha, hb]
            rw [he]
            refine ⟨fun s hsm => mono _ (hs s hsm), fun t cbs h => ?_⟩
            simp at h

/-- Over a whole fold, every section title (emitted or still open) comes
from a non-`Overview` heading among the processed lines. -/
theorem foldl_title :
    ∀ (lines : List String) (st : ParseState) (ls0 : List String),
      (∀ s ∈ st.sections, goodTitle ls0 s.title) →
      (∀ t cbs, st.currentSection = some (t, cbs) → goodTitle ls0 t) →
      (∀ s ∈ (lines.foldl step st).sections,
          goodTitle (ls0 ++ lines) s.title)
      ∧ (∀ t cbs, (lines.foldl step st).currentSection = some (t, cbs) →
          goodTitle (ls0 ++ lines) t) := by
  intro lines
  induction lines with
  | nil =>
    intro st ls0 hs hc
    simpa using ⟨hs, hc⟩
  | cons l ls ih =>
    intro st ls0 hs hc
    rw [List.foldl_cons]
    have h1 := step_title st l ls0 hs hc
    have h2 := ih (step st l) (ls0 ++ [l]) h1.1 h1.2
    rwa [List.append_assoc] at h2

/-- Claim C10: for every input, `parseMarkdownContent` emits no section
titled `Overview`; every section title is the trimmed text of some
`'## '` heading line of the input; and on titles and code blocks the
output equals the reference rendering `refSections`, in which each
section's code blocks are exactly the fenced code blocks appearing
between that section's heading and the next section heading. -/
theorem c10_parse_markdown :
    ∀ content : String,
      (∀ s ∈ parseMarkdownContent content, s.title ≠ "Overview")
      ∧ (∀ s ∈ parseMarkdownContent content,
          ∃ l ∈ splitLines content,
            jsStartsWith l "## " = true ∧ s.title = jsTrim (jsDrop l 3))
      ∧ (parseMarkdownContent content).map sectionTitleBlocks
          = refSections (splitLines content) := by
  intro content
  have hfold := foldl_title (splitLines content)
    ⟨[], none, [], false, [], ""⟩ []
    (by intro s hs; simp at hs)
    (by intro t cbs h; simp at h)
  simp only [List.nil_append] at hfold
  have hview := foldl_step_ref (splitLines content) [] none [] false [] ""
  have hparse : parseMarkdownContent content
      = (match ((splitLines content).foldl step
            ⟨[], none, [], false, [], ""⟩).currentSection with
         | some (t, cbs) =>
           if t != "Overview" then
             ((splitLines content).foldl step
               ⟨[], none, [], false, [], ""⟩).sections ++
               [⟨t, jsTrim (joinLines (((splitLines content).foldl step
                 ⟨[], none, [], false, [], ""⟩).currentContent)), cbs⟩]
           else ((splitLines content).foldl step
             ⟨[], none, [], false, [], ""⟩).sections
         | none => ((splitLines content).foldl step
             ⟨[], none, [], false, [], ""⟩).sections) := rfl
  have hgood : ∀ s ∈ parseMarkdownContent content,
      goodTitle (splitLines content) s.title := by
    intro s hsm
    rw [hparse] at hsm
    split at hsm
    next t cbs hcur =>
      have hgt := hfold.2 t cbs hcur
      have hne : (t != "Overview") = true := by
        obtain ⟨-, -, -, -, h3⟩ := hgt
        exact bne_iff_ne.mpr h3
      rw [if_pos hne] at hsm
      rcases List.mem_append.mp hsm with h | h
      · exact hfold.1 s h
      · rw [List.mem_singleton.mp h]
        exact hgt
    next hcur =>
      exact hfold.1 s hsm
  refine ⟨fun s hsm => ?_, fun s hsm => ?_, ?_⟩
  · obtain ⟨-, -, -, -, h3⟩ := hgood s hsm
    exact h3
  · obtain ⟨l, hl, h1, h2, -⟩ := hgood s hsm
    exact ⟨l, hl, h1, h2⟩
  · rw [hparse]
    split
    next t cbs hcur =>
      have hgt := hfold.2 t cbs hcur
      have hne : (t != "Overview") = true := by
        obtain ⟨-, -, -, -, h3⟩ := hgt
        exact bne_iff_ne.mpr h3
      rw [if_pos hne]
      have hv : viewFold ((splitLines content).foldl step
          ⟨[], none, [], false, [], ""⟩)
          = ((splitLines content).foldl step
              ⟨[], none, [], false, [], ""⟩).sections.map
              sectionTitleBlocks ++ [(t, cbs)] := by
        rw [viewFold, hcur]
        rfl
      rw [List.map_append]
      have hone : ([⟨t, jsTrim (joinLines (((splitLines content).foldl
          step ⟨[], none, [], false, [], ""⟩).currentContent)), cbs⟩]
          : List MdSection).map sectionTitleBlocks = [(t, cbs)] := rfl
      rw [hone, ← hv, hview]
      simp [refSections, fenceItems]
    next hcur =>
      have hv : viewFold ((splitLines content).foldl step
          ⟨[], none, [], false, [], ""⟩)
          = ((splitLines content).foldl step
            ⟨[], none, [], false, [], ""⟩).sections.map
              sectionTitleBlocks := by
        rw [viewFold, hcur]
        simp [viewCur]
      rw [← hv, hview]
      simp [refSections, fenceItems]

/-- Claim C10, witness: a concrete document with a main title, a skipped
`Overview` section, a fenced code block containing a fake heading, and a
trailing section; its `Usage` section is parsed and is not `Overview`. -/
theorem c10_witness :
    (⟨"Usage", "use\n___CODE_BLOCK_0___\ntail", ["## NotHeading\ncode"]⟩
      : MdSection)
      ∈ parseMarkdownContent
        "# Title\n## Overview\nintro\n## Usage\nuse\n```\n## NotHeading\ncode\n```\ntail\n## Misc\nend"
    ∧ (⟨"Usage", "use\n___CODE_BLOCK_0___\ntail", ["## NotHeading\ncode"]⟩
        : MdSection).title ≠ "Overview" :=
  ⟨by decide,
   (c10_parse_markdown
     "# Title\n## Overview\nintro\n## Usage\nuse\n```\n## NotHeading\ncode\n```\ntail\n## Misc\nend").1
     ⟨"Usage", "use\n___CODE_BLOCK_0___\ntail", ["## NotHeading\ncode"]⟩
     (by decide)⟩

/-- Claim C6, witness: with the default threshold 0.35, a result scoring
exactly 0.35 is kept. -/
theorem c6_witness :
    (⟨⟨0, "t", "p", "f", Category.backend, 0⟩, mkRat 35 100⟩
      : RetrievalResult)
      ∈ thresholdFilter
        [⟨⟨0, "t", "p", "f", Category.backend, 0⟩, mkRat 35 100⟩]
        (mkRat 35 100) :=
  (c6_threshold_inclusive
    [⟨⟨0, "t", "p", "f", Category.backend, 0⟩, mkRat 35 100⟩]
    (mkRat 35 100)
    ⟨⟨0, "t", "p", "f", Category.backend, 0⟩, mkRat 35 100⟩
    (by decide)).1 (by decide)

end IPN
